import Mathlib

/-!
Shallow embedding of the deep_faker temporal entity store and flow scheduler
(src/deep_faker/entity_manager.py, actions.py, simulation.py).

Simulated instants (Python `datetime`) are modelled as integers: the code only
compares them with a total order, which `Int` provides.  Dynamic Python field
values are modelled by the inductive `Value`; Python dictionaries by ordered
association lists (Python dicts preserve insertion order, and updating an
existing key keeps its position, which `setField`/`setKey` mirror).  Fallible
Python code (raised `ValueError`/`TypeError`) is modelled with `Except String`.
-/

namespace DeepFaker

/-- Dynamic field values stored in entity state dictionaries. -/
inductive Value where
  | vint (n : Int)
  | vstr (s : String)
  | vnone
deriving DecidableEq, Repr

/-- The third slot of a `where` tuple: a plain value, or a list used by the
`in` operator. -/
inductive CondVal where
  | val (v : Value)
  | list (vs : List Value)
deriving DecidableEq, Repr

/-- One `where` tuple `(field, operation, value)` as passed to
`EntityManager.query`. -/
abbrev Cond := String × String × CondVal

/-- One update tuple `(field, operation, value)` as passed to
`EntityManager.insert_state`. -/
abbrev Update := String × String × Value

/-- Lookup in an ordered association list (Python `dict.__getitem__` /
`dict.get` without default). -/
def lookupKey {K V : Type} [DecidableEq K] : List (K × V) → K → Option V
  | [], _ => none
  | (k, v) :: rest, key => if k = key then some v else lookupKey rest key

/-- Write to an ordered association list: replace the value in place if the
key exists, append otherwise (Python `dict.__setitem__`). -/
def setKey {K V : Type} [DecidableEq K] : List (K × V) → K → V → List (K × V)
  | [], key, v => [(key, v)]
  | (k, w) :: rest, key, v =>
      if k = key then (k, v) :: rest else (k, w) :: setKey rest key v

/-- Lookup of a field in a state dictionary. -/
def lookupField (st : List (String × Value)) (f : String) : Option Value :=
  lookupKey st f

/-- Write a field in a state dictionary. -/
def setField (st : List (String × Value)) (f : String) (v : Value) :
    List (String × Value) :=
  setKey st f v

/-- Python `state.get(field)`: a missing key yields `None`, and a stored
`None` also yields `None`. -/
def getStateD (st : List (String × Value)) (f : String) : Value :=
  (lookupField st f).getD Value.vnone

/-- Whether the character list `pre` starts the character list `l`. -/
def startsWithChars : List Char → List Char → Bool
  | [], _ => true
  | _ :: _, [] => false
  | a :: as, b :: bs => a = b && startsWithChars as bs

/-- Whether `sub` occurs as a contiguous segment of `l` (Python substring
containment `sub in s`). -/
def hasSegment (sub : List Char) : List Char → Bool
  | [] => startsWithChars sub []
  | b :: bs => startsWithChars sub (b :: bs) || hasSegment sub bs

/-- Python `a + b` restricted to the value kinds the store can hold: integer
addition and string concatenation; other combinations raise `TypeError`. -/
def pyAdd : Value → Value → Except String Value
  | .vint a, .vint b => .ok (.vint (a + b))
  | .vstr a, .vstr b => .ok (.vstr (a ++ b))
  | _, _ => .error "TypeError: unsupported operand types for +"

/-- Python `a - b`: only integers subtract; anything else raises. -/
def pySub : Value → Value → Except String Value
  | .vint a, .vint b => .ok (.vint (a - b))
  | _, _ => .error "TypeError: unsupported operand types for -"

/-- Python `entity_value > value` for the value kinds the store holds:
integers by numeric order, strings lexicographically; mixed kinds raise. -/
def pyGT : Value → CondVal → Except String Bool
  | .vint x, .val (.vint y) => .ok (decide (y < x))
  | .vstr x, .val (.vstr y) => .ok (decide (y < x))
  | _, _ => .error "TypeError: unorderable types for >"

/-- Python `entity_value < value`, same conventions as `pyGT`. -/
def pyLT : Value → CondVal → Except String Bool
  | .vint x, .val (.vint y) => .ok (decide (x < y))
  | .vstr x, .val (.vstr y) => .ok (decide (x < y))
  | _, _ => .error "TypeError: unorderable types for <"

/-- Python `entity_value in value`: list membership by equality, substring
test when the container is a string, `TypeError` otherwise. -/
def pyIn (a : Value) : CondVal → Except String Bool
  | .list vs => .ok (vs.contains a)
  | .val (.vstr s) =>
      match a with
      | .vstr sub => .ok (hasSegment sub.data s.data)
      | _ => .error "TypeError: requires string as left operand"
  | .val _ => .error "TypeError: argument is not iterable"

/-- Python `entity_value == value` where the right side may be a list from an
`in` condition; the store never holds list values, so a comparison with a
list is `False`. -/
def condValEq (a : Value) : CondVal → Bool
  | .val v => decide (a = v)
  | .list _ => false

/-- One versioned state for an entity (`EntityState` in entity_manager.py).
The constructor copies the supplied dictionary, so versions never share
mutable state with their source. -/
structure EntityState where
  entity_type : String
  entity_id : String
  state : List (String × Value)
  valid_from : Int
  valid_to : Option Int
deriving DecidableEq, Repr

/-- `EntityState.is_valid_at`: membership of `time` in the half-open
validity interval. -/
def EntityState.is_valid_at (s : EntityState) (time : Int) : Bool :=
  if time < s.valid_from then false
  else
    match s.valid_to with
    | some vt => if vt ≤ time then false else true
    | none => true

/-- Key of an entity record: (entity type name, entity id). -/
abbrev EntityKey := String × String

/-- The entity manager (`EntityManager` in entity_manager.py): versioned
records per key, plus the per-key activity flags consulted by
`get_available_entities`. -/
structure EntityManager where
  entity_states : List (EntityKey × List EntityState)
  active_entities : List (EntityKey × Bool)
deriving DecidableEq, Repr

/-- The freshly constructed manager (`EntityManager.__init__`). -/
def EntityManager.empty : EntityManager := ⟨[], []⟩

/-- `EntityManager.add_entity`: append an initial open version for the key
and mark the key available.  The Python code extracts the state dictionary
from a live entity object; here the extracted dictionary is the `fields`
argument.  There is no duplicate check: an existing record simply grows. -/
def EntityManager.add_entity (em : EntityManager) (ty id : String)
    (fields : List (String × Value)) (time : Int) : EntityManager :=
  let key : EntityKey := (ty, id)
  let es : EntityState := ⟨ty, id, fields, time, none⟩
  let cur := (lookupKey em.entity_states key).getD []
  { entity_states := setKey em.entity_states key (cur ++ [es]),
    active_entities := setKey em.active_entities key false }

/-- The `time is None` branch of `get_entity_state`: scan the record from the
end for an open version, falling back to the last version. -/
def currentOf (r : List EntityState) : Option EntityState :=
  match r.reverse.find? (fun s => s.valid_to = none) with
  | some s => some s
  | none => r.getLast?

/-- `EntityManager.get_entity_state`: the version valid at `time`, or the
current version when no time is supplied. -/
def EntityManager.get_entity_state (em : EntityManager) (ty id : String)
    (time : Option Int) : Option EntityState :=
  match lookupKey em.entity_states (ty, id) with
  | none => none
  | some r =>
      match time with
      | none => currentOf r
      | some t => r.find? (fun s => s.is_valid_at t)

/-- Evaluation of one `where` tuple against a state dictionary, mirroring the
operator dispatch in `EntityManager.query`.  An unrecognized operation leaves
`matches` untouched, i.e. the condition holds vacuously. -/
def evalCond (st : List (String × Value)) (c : Cond) : Except String Bool :=
  match c with
  | (field, operation, value) =>
    let ev := getStateD st field
    if operation = "is" ∨ operation = "=" then
      .ok (condValEq ev value)
    else if operation = "is_not" ∨ operation = "!=" then
      .ok (!condValEq ev value)
    else if operation = "greater_than" ∨ operation = ">" then
      if ev = Value.vnone then .ok false else pyGT ev value
    else if operation = "less_than" ∨ operation = "<" then
      if ev = Value.vnone then .ok false else pyLT ev value
    else if operation = "in" then
      pyIn ev value
    else
      .ok true

/-- Conjunction of the `where` tuples, evaluated left to right with the same
early exit as the Python loop (`break` on the first failing condition). -/
def matchesWhere (st : List (String × Value)) : List Cond → Except String Bool
  | [] => .ok true
  | c :: rest => do
      let b ← evalCond st c
      if b then matchesWhere st rest else pure false

/-- Iteration over the records of `EntityManager.query`, in insertion order,
accumulating the matching `(entity_id, state)` pairs. -/
def queryAux (em : EntityManager) (ty : String) (conds : List Cond)
    (time : Option Int) : List (EntityKey × List EntityState) →
    Except String (List (String × EntityState))
  | [] => .ok []
  | ((ety, eid), _) :: rest =>
      if ety = ty then
        match em.get_entity_state ty eid time with
        | none => queryAux em ty conds time rest
        | some st => do
            let m ← matchesWhere st.state conds
            let tail ← queryAux em ty conds time rest
            if m then pure ((eid, st) :: tail) else pure tail
      else queryAux em ty conds time rest

/-- `EntityManager.query`. -/
def EntityManager.query (em : EntityManager) (ty : String) (conds : List Cond)
    (time : Option Int) : Except String (List (String × EntityState)) :=
  queryAux em ty conds time em.entity_states

/-- `EntityManager.get_available_entities`: the query results restricted to
keys whose activity flag is unset. -/
def EntityManager.get_available_entities (em : EntityManager) (ty : String)
    (conds : List Cond) (time : Option Int) :
    Except String (List (String × EntityState)) := do
  let all ← em.query ty conds time
  pure (all.filter
    (fun p => !((lookupKey em.active_entities (ty, p.1)).getD false)))

/-- Application of one update tuple in `insert_state`: `is`/`=` assign,
`add`/`subtract` arithmetic with missing fields defaulting to `0`, and any
other operation falls through to plain assignment. -/
def applyUpdate (st : List (String × Value)) (u : Update) :
    Except String (List (String × Value)) :=
  match u with
  | (field, operation, value) =>
    if operation = "is" ∨ operation = "=" then
      .ok (setField st field value)
    else if operation = "add" then do
      let cv := (lookupField st field).getD (.vint 0)
      let s ← pyAdd cv value
      pure (setField st field s)
    else if operation = "subtract" then do
      let cv := (lookupField st field).getD (.vint 0)
      let s ← pySub cv value
      pure (setField st field s)
    else
      .ok (setField st field value)

/-- Ordered application of all update tuples of one `insert_state` call. -/
def applyUpdates (st : List (String × Value)) :
    List Update → Except String (List (String × Value))
  | [] => .ok st
  | u :: rest => do
      let st' ← applyUpdate st u
      applyUpdates st' rest

/-- Close the first open version of a list (used on the reversed record, so
it closes the version the reversed scan of `get_entity_state` finds). -/
def closeFirstOpen : List EntityState → Int → List EntityState
  | [], _ => []
  | s :: rest, t =>
      if s.valid_to = none then { s with valid_to := some t } :: rest
      else s :: closeFirstOpen rest t

/-- The `current_state.valid_to = time` step of `insert_state`: set
`valid_to` on the last open version, if any. -/
def closeCurrent (r : List EntityState) (t : Int) : List EntityState :=
  (closeFirstOpen r.reverse t).reverse

/-- `EntityManager.insert_state`: fail when the key is unknown or has no
current version, close the current version at `time`, apply the updates to a
copy of its fields, and append the new open version.  Note that no
time-monotonicity check is performed. -/
def EntityManager.insert_state (em : EntityManager) (ty id : String)
    (updates : List Update) (time : Int) : Except String EntityManager :=
  let key : EntityKey := (ty, id)
  match lookupKey em.entity_states key with
  | none => .error "ValueError: entity does not exist"
  | some r =>
      match currentOf r with
      | none => .error "ValueError: no current state found for entity"
      | some cur => do
          let newFields ← applyUpdates cur.state updates
          let newVersion : EntityState := ⟨ty, id, newFields, time, none⟩
          pure { em with
            entity_states :=
              setKey em.entity_states key (closeCurrent r time ++ [newVersion]) }

/-- `EntityManager.mutate_state` simply delegates to `insert_state`. -/
def EntityManager.mutate_state (em : EntityManager) (ty id : String)
    (updates : List Update) (time : Int) : Except String EntityManager :=
  em.insert_state ty id updates time

/-- `EntityManager.mark_entity_active`. -/
def EntityManager.mark_entity_active (em : EntityManager) (ty id : String) :
    EntityManager :=
  { em with active_entities := setKey em.active_entities (ty, id) true }

/-- `EntityManager.mark_entity_available`. -/
def EntityManager.mark_entity_available (em : EntityManager) (ty id : String) :
    EntityManager :=
  { em with active_entities := setKey em.active_entities (ty, id) false }

/-- `EntityManager.is_entity_active`. -/
def EntityManager.is_entity_active (em : EntityManager) (ty id : String) :
    Bool :=
  (lookupKey em.active_entities (ty, id)).getD false

/-- Modelled from the spec: `EntityManager.set_entity_flow` is invoked by
`GlobalContext.set_entity_flow` and `FlowContext.cleanup` (actions.py) but is
absent from the source tree.  Following the spec — the claim is "an implicit
state field … updated through the same versioning mechanism as any other
field", and `queryAvailable` excludes claimed ids — it records the flow name
through `insert_state` and flips the activity flag consulted by
`get_available_entities`: claimed (`some flow`) marks the entity active,
released (`none`) marks it available. -/
def EntityManager.set_entity_flow (em : EntityManager) (ty id : String)
    (flow : Option String) (time : Int) : Except String EntityManager := do
  let v := match flow with
    | some f => Value.vstr f
    | none => Value.vnone
  let em' ← em.insert_state ty id [("flow_name", "is", v)] time
  match flow with
  | some _ => pure (em'.mark_entity_active ty id)
  | none => pure (em'.mark_entity_available ty id)

/-!
Scheduler model (Simulation.run in simulation.py).

One flow instance carries the sequence of actions its generator will yield
and its local flow clock.  A `decay` action carries the outcome of the
`random.random() < rate` draw already resolved (the generator together with
the fixed-seed RNG determines the whole sequence, so a run of the loop is a
function of these pre-resolved draws).  A behavior that raises is modelled by
the `raiseErr` action: the stepping loop wraps `next(...)` in a `try` that
catches only `StopIteration`, so every other exception propagates.
-/

/-- One action yielded by a flow generator, with random draws resolved. -/
inductive FlowAction where
  | emit
  | decay (delta : Int) (terminate : Bool)
  | raiseErr (msg : String)
deriving DecidableEq, Repr

/-- A running flow instance of the inner loop of `Simulation.run`. -/
structure FlowInstance where
  remaining : List FlowAction
  clock : Int
deriving DecidableEq, Repr

/-- One `next(...)`/process iteration of the inner loop for one instance:
`none` means the instance left the active list (natural completion, decay
termination, or the `flow_clock > tj` boundary pause); the `Nat` counts the
events emitted by this step.  A raised error is not caught and propagates. -/
def stepFlow (tj : Int) (f : FlowInstance) :
    Except String (Option FlowInstance × Nat) :=
  match f.remaining with
  | [] => .ok (none, 0)
  | a :: rest =>
      match a with
      | .raiseErr msg => .error msg
      | .emit =>
          let f' : FlowInstance := { f with remaining := rest }
          if tj < f'.clock then .ok (none, 1) else .ok (some f', 1)
      | .decay delta term =>
          let f' : FlowInstance := { remaining := rest, clock := f.clock + delta }
          if term then .ok (none, 0)
          else if tj < f'.clock then .ok (none, 0)
          else .ok (some f', 0)

/-- One pass of the `for i, flow_info in enumerate(active_flows)` loop:
every active instance is stepped once, in order, and completed instances are
dropped; the first uncaught exception aborts the whole pass. -/
def stepPassList (tj : Int) : List FlowInstance →
    Except String (List FlowInstance × Nat)
  | [] => .ok ([], 0)
  | f :: rest => do
      let r ← stepFlow tj f
      let tail ← stepPassList tj rest
      match r.1 with
      | none => pure (tail.1, r.2 + tail.2)
      | some f' => pure (f' :: tail.1, r.2 + tail.2)

/-- Termination measure for the `while active_flows` loop. -/
def flowsMeasure (fs : List FlowInstance) : Nat :=
  (fs.map (fun f => f.remaining.length + 1)).sum

theorem stepPassList_measure_le (tj : Int) :
    ∀ (fs fs' : List FlowInstance) (n : Nat),
      stepPassList tj fs = .ok (fs', n) →
      flowsMeasure fs' + fs.length ≤ flowsMeasure fs := by
  intro fs
  induction fs with
  | nil =>
      intro fs' n h
      simp [stepPassList] at h
      simp [h.1, flowsMeasure]
  | cons f rest ih =>
      intro fs' n h
      simp only [stepPassList, bind, Except.bind] at h
      cases hf : stepFlow tj f with
      | error e => rw [hf] at h; simp at h
      | ok r =>
          rw [hf] at h
          cases ht : stepPassList tj rest with
          | error e => rw [ht] at h; simp at h
          | ok tailp =>
              rw [ht] at h
              have hrest := ih tailp.1 tailp.2 (by rw [ht])
              have hr : r.1 = none ∨ ∃ f', r.1 = some f' ∧
                  f'.remaining.length + 1 ≤ f.remaining.length := by
                unfold stepFlow at hf
                cases hrem : f.remaining with
                | nil => left; rw [hrem] at hf; simp at hf; simp [← hf]
                | cons a as =>
                    rw [hrem] at hf
                    cases a with
                    | raiseErr m => simp at hf
                    | emit =>
                        simp only at hf
                        by_cases hc : tj < f.clock
                        · left; simp [hc] at hf; simp [← hf]
                        · right
                          simp [hc] at hf
                          refine ⟨{ f with remaining := as }, by simp [← hf], ?_⟩
                          simp [hrem]
                    | decay d term =>
                        simp only at hf
                        by_cases hterm : term
                        · left; simp [hterm] at hf; simp [← hf]
                        · by_cases hc : tj < f.clock + d
                          · left; simp [hterm, hc] at hf; simp [← hf]
                          · right
                            simp [hterm, hc] at hf
                            refine ⟨{ remaining := as, clock := f.clock + d },
                              by simp [← hf], ?_⟩
                            simp [hrem]
              rcases hr with hnone | ⟨f', hsome, hlen⟩
              · simp only at h
                rw [hnone] at h
                simp only [pure, Except.pure, Except.ok.injEq] at h
                have : fs' = tailp.1 := congrArg Prod.fst h.symm
                subst this
                simp only [flowsMeasure, List.map_cons, List.sum_cons,
                  List.length_cons] at hrest ⊢
                omega
              · simp only at h
                rw [hsome] at h
                simp only [pure, Except.pure, Except.ok.injEq] at h
                have : fs' = f' :: tailp.1 := congrArg Prod.fst h.symm
                subst this
                simp only [flowsMeasure, List.map_cons, List.sum_cons,
                  List.length_cons] at hrest hlen ⊢
                omega

/-- The `while active_flows` loop of `Simulation.run`: repeat passes until no
instance is active, returning the total number of emitted events; an
uncaught exception from any behavior aborts the loop (and hence the run). -/
def runFlows (tj : Int) (fs : List FlowInstance) : Except String Nat :=
  match hfs : fs with
  | [] => .ok 0
  | g :: gs =>
      match hp : stepPassList tj (g :: gs) with
      | .error e => .error e
      | .ok (fs', n) =>
          have hdec : flowsMeasure fs' < flowsMeasure (g :: gs) := by
            have := stepPassList_measure_le tj (g :: gs) fs' n hp
            simp only [List.length_cons] at this
            omega
          match runFlows tj fs' with
          | .error e => .error e
          | .ok m => .ok (n + m)
termination_by flowsMeasure fs
decreasing_by exact hdec

/-- The per-tick slot loop of `Simulation.run` specialised to a single flow
template whose eligibility filter selects entities of type `ty` matching
`conds`: for each of the `n_flows` slots, the template is eligible only if an
available matching entity exists (`_select_flow`); an eligible slot claims
one available entity — `random.choice` modelled as taking the first
candidate, which coincides with it whenever at most one candidate exists —
by setting its flow name (`FlowContext.add_entity`), all at the tick's
`global_clock` as in the source.  Returns the claimed entity id per slot
(`none` for a skipped slot). -/
def runSlots (em : EntityManager) (ty : String) (conds : List Cond)
    (time : Int) (flow : String) :
    Nat → Except String (EntityManager × List (Option String))
  | 0 => .ok (em, [])
  | n + 1 => do
      let avail ← em.get_available_entities ty conds (some time)
      match avail with
      | [] => do
          let r ← runSlots em ty conds time flow n
          pure (r.1, none :: r.2)
      | (eid, _) :: _ => do
          let em1 ← em.set_entity_flow ty eid (some flow) time
          let r ← runSlots em1 ty conds time flow n
          pure (r.1, some eid :: r.2)

/-! Helper lemmas about association lists. -/

theorem lookupKey_setKey_self {K V : Type} [DecidableEq K]
    (l : List (K × V)) (k : K) (v : V) :
    lookupKey (setKey l k v) k = some v := by
  induction l with
  | nil => simp [setKey, lookupKey]
  | cons p rest ih =>
      by_cases h : p.1 = k
      · simp [setKey, lookupKey, h]
      · simpa [setKey, lookupKey, h] using ih

theorem lookupKey_setKey_ne {K V : Type} [DecidableEq K]
    (l : List (K × V)) (k k' : K) (v : V) (h : k' ≠ k) :
    lookupKey (setKey l k v) k' = lookupKey l k' := by
  induction l with
  | nil => simp [setKey, lookupKey, Ne.symm h]
  | cons p rest ih =>
      obtain ⟨a, b⟩ := p
      by_cases hp : a = k
      · subst hp
        simp [setKey, lookupKey, Ne.symm h]
      · simp [setKey, lookupKey, hp, ih]

theorem lookupField_setField_self (st : List (String × Value)) (f : String)
    (v : Value) : lookupField (setField st f v) f = some v :=
  lookupKey_setKey_self st f v

/-! Claim C10. -/

/-- C10: for an update tuple whose operation is none of `is`, `=`, `add`,
`subtract`, `insert_state` silently behaves as a `set`: applying the update
assigns `value` to the field without error, and the whole `insert_state`
call coincides with the one using `is`. -/
theorem insert_state_unknown_op_is_set :
    (∀ (st : List (String × Value)) (f op : String) (v : Value),
      op ≠ "is" → op ≠ "=" → op ≠ "add" → op ≠ "subtract" →
      applyUpdate st (f, op, v) = .ok (setField st f v) ∧
      lookupField (setField st f v) f = some v) ∧
    (∀ (em : EntityManager) (ty id f op : String) (v : Value) (time : Int),
      op ≠ "is" → op ≠ "=" → op ≠ "add" → op ≠ "subtract" →
      em.insert_state ty id [(f, op, v)] time =
        em.insert_state ty id [(f, "is", v)] time) := by
  have happ : ∀ (st : List (String × Value)) (f op : String) (v : Value),
      op ≠ "is" → op ≠ "=" → op ≠ "add" → op ≠ "subtract" →
      applyUpdate st (f, op, v) = .ok (setField st f v) := by
    intro st f op v h1 h2 h3 h4
    simp [applyUpdate, h1, h2, h3, h4]
  constructor
  · intro st f op v h1 h2 h3 h4
    exact ⟨happ st f op v h1 h2 h3 h4, lookupField_setField_self st f v⟩
  · intro em ty id f op v time h1 h2 h3 h4
    have hupd : ∀ st, applyUpdates st [(f, op, v)] =
        applyUpdates st [(f, "is", v)] := by
      intro st
      simp only [applyUpdates, happ st f op v h1 h2 h3 h4, bind, Except.bind]
      simp [applyUpdate]
    simp only [EntityManager.insert_state, hupd]

/-- Witness for C10 at a concrete unknown operation. -/
theorem insert_state_unknown_op_is_set_witness :
    applyUpdate [] ("x", "frobnicate", Value.vint 7) =
      .ok (setField [] "x" (Value.vint 7)) ∧
    lookupField (setField [] "x" (Value.vint 7)) "x" = some (Value.vint 7) :=
  insert_state_unknown_op_is_set.1 [] "x" "frobnicate" (Value.vint 7)
    (by decide) (by decide) (by decide) (by decide)

/-! Claim C4. -/

/-- C4 fails as stated: adding an entity whose id already exists for the
type raises no `DuplicateEntity` error — the second `add_entity` call goes
through and leaves a two-version record (both versions open). -/
theorem add_entity_duplicate_counterexample :
    (lookupKey ((EntityManager.empty.add_entity "User" "u1" [] 0).add_entity
        "User" "u1" [] 5).entity_states ("User", "u1")).map
      (List.map (fun s => (s.valid_from, s.valid_to))) =
    some [((0 : Int), (none : Option Int)), (5, none)] := by decide

/-- C4 (amended): `add_entity` creates exactly one first open version for a
new `(type, id)`; when the id already exists for the type it does not fail
but appends a further open version to the existing record; in both cases the
key is marked available. -/
theorem add_entity_spec (em : EntityManager) (ty id : String)
    (fields : List (String × Value)) (t : Int) :
    (lookupKey em.entity_states (ty, id) = none →
      lookupKey (em.add_entity ty id fields t).entity_states (ty, id) =
        some [⟨ty, id, fields, t, none⟩]) ∧
    (∀ r, lookupKey em.entity_states (ty, id) = some r →
      lookupKey (em.add_entity ty id fields t).entity_states (ty, id) =
        some (r ++ [⟨ty, id, fields, t, none⟩])) ∧
    lookupKey (em.add_entity ty id fields t).active_entities (ty, id) =
      some false := by
  refine ⟨?_, ?_, ?_⟩
  · intro h
    simp [EntityManager.add_entity, h, lookupKey_setKey_self]
  · intro r h
    simp [EntityManager.add_entity, h, lookupKey_setKey_self]
  · simp [EntityManager.add_entity, lookupKey_setKey_self]

/-- Witness for C4's amended statement: the fresh-key case on an empty
manager and the existing-key case on its result. -/
theorem add_entity_spec_witness :
    lookupKey (EntityManager.empty.add_entity "User" "u1" [] 0).entity_states
      ("User", "u1") = some [⟨"User", "u1", [], 0, none⟩] ∧
    lookupKey ((EntityManager.empty.add_entity "User" "u1" [] 0).add_entity
        "User" "u1" [] 5).entity_states ("User", "u1") =
      some [⟨"User", "u1", [], 0, none⟩, ⟨"User", "u1", [], 5, none⟩] :=
  ⟨(add_entity_spec EntityManager.empty "User" "u1" [] 0).1 (by decide),
   (add_entity_spec (EntityManager.empty.add_entity "User" "u1" [] 0)
      "User" "u1" [] 5).2.1 [⟨"User", "u1", [], 0, none⟩] (by decide)⟩

/-! Claim C3. -/

/-- C3 fails as stated: a mutation at time 3 on an entity whose current
version has `valid_from = 5` succeeds instead of failing with a
non-monotonic-time error, and the resulting current version has
`valid_from = 3 < 5`. -/
theorem insert_state_non_monotonic_counterexample :
    ((EntityManager.empty.add_entity "User" "u1" [("balance", .vint 1000)]
        5).insert_state "User" "u1" [("balance", "is", .vint 1)] 3).isOk =
      true ∧
    (3 : Int) ≤ 5 ∧
    ((EntityManager.empty.add_entity "User" "u1" [("balance", .vint 1000)]
        5).insert_state "User" "u1" [("balance", "is", .vint 1)] 3).map
      (fun em => (em.get_entity_state "User" "u1" none).map
        (fun s => s.valid_from)) = .ok (some 3) :=
  ⟨rfl, by decide, rfl⟩

/-- C3 (amended): `insert_state` performs no time-monotonicity check.
Whenever the entity exists and the updates apply, the mutation succeeds for
every supplied time — also for `time` ≤ the current version's `valid_from` —
closing the current open version at that time and appending a new open
version whose `valid_from` equals the supplied time, so `valid_from` need
not strictly increase. -/
theorem insert_state_no_time_check (em : EntityManager) (ty id : String)
    (upds : List Update) (time : Int) (r : List EntityState)
    (cur : EntityState) (nf : List (String × Value))
    (hr : lookupKey em.entity_states (ty, id) = some r)
    (hcur : currentOf r = some cur)
    (hnf : applyUpdates cur.state upds = .ok nf) :
    em.insert_state ty id upds time =
      .ok ({ em with entity_states := (setKey em.entity_states (ty, id)
              (closeCurrent r time ++ [⟨ty, id, nf, time, none⟩])) }) ∧
    (em.insert_state ty id upds time).map
      (fun em' => (lookupKey em'.entity_states (ty, id)).map
        (fun r' => r'.getLast?.map (fun s => s.valid_from))) =
      .ok (some (some time)) := by
  have h1 : em.insert_state ty id upds time =
      .ok ({ em with entity_states := (setKey em.entity_states (ty, id)
              (closeCurrent r time ++ [⟨ty, id, nf, time, none⟩])) }) := by
    simp [EntityManager.insert_state, hr, hcur, hnf, bind, Except.bind,
      pure, Except.pure]
  refine ⟨h1, ?_⟩
  rw [h1]
  simp [Except.map, lookupKey_setKey_self]

/-- Witness for C3's amended statement, at a time at or before the current
version's `valid_from`. -/
theorem insert_state_no_time_check_witness :
    ((EntityManager.empty.add_entity "User" "u1" [] 5).insert_state
        "User" "u1" [] 3).map
      (fun em' => (lookupKey em'.entity_states ("User", "u1")).map
        (fun r' => r'.getLast?.map (fun s => s.valid_from))) =
      .ok (some (some 3)) :=
  (insert_state_no_time_check (EntityManager.empty.add_entity "User" "u1" [] 5)
    "User" "u1" [] 3 [⟨"User", "u1", [], 5, none⟩] ⟨"User", "u1", [], 5, none⟩
    [] (by decide) rfl rfl).2

/-! Claim C1. -/

/-- C1 fails as stated: with a first instance whose behavior raises and a
second instance that would emit one event, the run does not complete
normally — the error propagates out of the stepping loop and aborts it. -/
theorem run_flow_error_counterexample :
    runFlows 100 [⟨[.raiseErr "boom"], 0⟩, ⟨[.emit], 0⟩] =
      .error "boom" := by
  simp [runFlows, stepPassList, stepFlow, bind, Except.bind]

/-- C1 (amended): an error raised inside a flow's behavior is not caught by
the stepping loop of `Simulation.run` (whose `try` handles only
`StopIteration`): whatever the other instances are, the exception propagates
immediately and aborts the whole run. -/
theorem run_flow_error_aborts (tj : Int) (msg : String)
    (acts : List FlowAction) (c : Int) (rest : List FlowInstance) :
    runFlows tj (⟨.raiseErr msg :: acts, c⟩ :: rest) = .error msg := by
  simp [runFlows, stepPassList, stepFlow, bind, Except.bind]

/-! Claim C2. -/

/-- C2: an entity claimed by a flow (its flow name set, as happens in
`FlowContext.add_entity` when an instance starts, and undone only by
`FlowContext.cleanup` on termination) is never returned by
`get_available_entities`; and in the concrete two-slot scenario with exactly
one available matching entity, the first slot claims it and the second slot
finds no eligible flow. -/
theorem claimed_entity_not_available :
    (∀ (em em' : EntityManager) (ty id flow : String) (t : Int),
      em.set_entity_flow ty id (some flow) t = .ok em' →
      ∀ (conds : List Cond) (time : Option Int)
        (res : List (String × EntityState)),
        em'.get_available_entities ty conds time = .ok res →
        ∀ st, (id, st) ∉ res) ∧
    (runSlots (EntityManager.empty.add_entity "User" "u1"
        [("is_logged_in", Value.vint 1)] 0) "User"
        [("is_logged_in", "is", CondVal.val (Value.vint 1))] 10 "flowA"
        2).map (fun r => r.2) = .ok [some "u1", none] := by
  constructor
  · intro em em' ty id flow t hset conds time res hav st hmem
    have hact : em'.active_entities =
        setKey ((match em.insert_state ty id [("flow_name", "is",
          Value.vstr flow)] t with
          | .ok e => e
          | .error _ => em).active_entities) (ty, id) true := by
      unfold EntityManager.set_entity_flow at hset
      simp only at hset
      cases hins : em.insert_state ty id [("flow_name", "is",
          Value.vstr flow)] t with
      | error e => rw [hins] at hset; simp [bind, Except.bind] at hset
      | ok em1 =>
          rw [hins] at hset
          simp only [bind, Except.bind, pure, Except.pure,
            Except.ok.injEq] at hset
          rw [← hset]
          rfl
    have hflag : (lookupKey em'.active_entities (ty, id)).getD false = true := by
      rw [hact, lookupKey_setKey_self]
      rfl
    unfold EntityManager.get_available_entities at hav
    cases hq : em'.query ty conds time with
    | error e => rw [hq] at hav; simp [bind, Except.bind] at hav
    | ok all =>
        rw [hq] at hav
        simp only [bind, Except.bind, pure, Except.pure,
          Except.ok.injEq] at hav
        rw [← hav] at hmem
        have := List.of_mem_filter hmem
        simp only [hflag] at this
        exact absurd this (by simp)
  · rfl

/-- Concrete managers for the C2 witness: one entity, then its claim by a
flow, then the availability query on the claimed store. -/
def c2em0 : EntityManager :=
  EntityManager.empty.add_entity "User" "u1" [("is_logged_in", Value.vint 1)] 0

/-- The store after the flow claims the entity. -/
def c2emClaimed : EntityManager :=
  ((c2em0.set_entity_flow "User" "u1" (some "flowA") 5).toOption).getD
    EntityManager.empty

/-- The availability query result on the claimed store. -/
def c2avail : List (String × EntityState) :=
  ((c2emClaimed.get_available_entities "User" [] (some 5)).toOption).getD
    [("u1", ⟨"User", "u1", [], 0, none⟩)]

/-- Witness for C2 at the concrete claimed store. -/
theorem claimed_entity_not_available_witness :
    ("u1", (⟨"User", "u1", [("is_logged_in", Value.vint 1)], 0,
      some 5⟩ : EntityState)) ∉ c2avail :=
  claimed_entity_not_available.1 c2em0 c2emClaimed "User" "u1" "flowA" 5 rfl
    [] (some 5) c2avail rfl
    ⟨"User", "u1", [("is_logged_in", Value.vint 1)], 0, some 5⟩

/-! Helper lemmas for reasoning about one `insert_state` call. -/

theorem getStateD_setField_self (st : List (String × Value)) (f : String)
    (v : Value) : getStateD (setField st f v) f = v := by
  simp [getStateD, lookupField_setField_self]

theorem currentOf_append_open (l : List EntityState) (v : EntityState)
    (hv : v.valid_to = none) : currentOf (l ++ [v]) = some v := by
  simp [currentOf, List.find?, hv]

theorem applyUpdates_is (st : List (String × Value)) (f : String) (v : Value) :
    applyUpdates st [(f, "is", v)] = .ok (setField st f v) := by
  simp [applyUpdates, applyUpdate, bind, Except.bind, pure, Except.pure]

theorem applyUpdates_add (st : List (String × Value)) (f : String) (x : Int)
    (nf : List (String × Value))
    (h : applyUpdates st [(f, "add", .vint x)] = .ok nf) :
    ∃ a : Int, (lookupField st f).getD (.vint 0) = .vint a ∧
      nf = setField st f (.vint (a + x)) := by
  simp only [applyUpdates, applyUpdate, bind, Except.bind] at h
  cases hcv : (lookupField st f).getD (.vint 0) with
  | vint a =>
      rw [hcv] at h
      simp [pyAdd, pure, Except.pure] at h
      exact ⟨a, rfl, h.symm⟩
  | vstr s => rw [hcv] at h; simp [pyAdd] at h
  | vnone => rw [hcv] at h; simp [pyAdd] at h

theorem applyUpdates_subtract (st : List (String × Value)) (f : String)
    (x : Int) (nf : List (String × Value))
    (h : applyUpdates st [(f, "subtract", .vint x)] = .ok nf) :
    ∃ a : Int, (lookupField st f).getD (.vint 0) = .vint a ∧
      nf = setField st f (.vint (a - x)) := by
  simp only [applyUpdates, applyUpdate, bind, Except.bind] at h
  cases hcv : (lookupField st f).getD (.vint 0) with
  | vint a =>
      rw [hcv] at h
      simp [pySub, pure, Except.pure] at h
      exact ⟨a, rfl, h.symm⟩
  | vstr s => rw [hcv] at h; simp [pySub] at h
  | vnone => rw [hcv] at h; simp [pySub] at h

theorem insert_state_ok_current (em em' : EntityManager) (ty id : String)
    (upds : List Update) (time : Int)
    (h : em.insert_state ty id upds time = .ok em') :
    ∃ cur nf, em.get_entity_state ty id none = some cur ∧
      applyUpdates cur.state upds = .ok nf ∧
      em'.get_entity_state ty id none = some ⟨ty, id, nf, time, none⟩ := by
  unfold EntityManager.insert_state at h
  simp only at h
  cases hr : lookupKey em.entity_states (ty, id) with
  | none => rw [hr] at h; simp at h
  | some r =>
      rw [hr] at h
      simp only at h
      cases hcur : currentOf r with
      | none => rw [hcur] at h; simp at h
      | some cur =>
          rw [hcur] at h
          simp only at h
          cases hnf : applyUpdates cur.state upds with
          | error e => rw [hnf] at h; simp [bind, Except.bind] at h
          | ok nf =>
              rw [hnf] at h
              simp only [bind, Except.bind, pure, Except.pure,
                Except.ok.injEq] at h
              refine ⟨cur, nf, ?_, hnf, ?_⟩
              · simp [EntityManager.get_entity_state, hr, hcur]
              · rw [← h]
                simp only [EntityManager.get_entity_state,
                  lookupKey_setKey_self]
                exact currentOf_append_open _ _ rfl

/-- The field value of the current version of an entity. -/
def fieldNow (em : EntityManager) (ty id f : String) : Option Value :=
  (em.get_entity_state ty id none).map (fun s => getStateD s.state f)

/-! Claim C7. -/

/-- C7: on the current version's field value, two sequential `add x`
mutations agree with a single `add 2x` mutation; repeating a `set` mutation
with the same value agrees with applying it once; and `add`/`subtract` on a
missing field treat it as 0. -/
theorem mutation_field_algebra :
    (∀ (em em1 em2 emB : EntityManager) (ty id f : String) (x t1 t2 t3 : Int),
      em.insert_state ty id [(f, "add", .vint x)] t1 = .ok em1 →
      em1.insert_state ty id [(f, "add", .vint x)] t2 = .ok em2 →
      em.insert_state ty id [(f, "add", .vint (2 * x))] t3 = .ok emB →
      fieldNow em2 ty id f = fieldNow emB ty id f) ∧
    (∀ (em em1 em2 : EntityManager) (ty id f : String) (v : Value)
       (t1 t2 : Int),
      em.insert_state ty id [(f, "is", v)] t1 = .ok em1 →
      em1.insert_state ty id [(f, "is", v)] t2 = .ok em2 →
      fieldNow em2 ty id f = fieldNow em1 ty id f) ∧
    (∀ (em em1 : EntityManager) (ty id f : String) (x t : Int)
       (cur : EntityState),
      em.get_entity_state ty id none = some cur →
      lookupField cur.state f = none →
      em.insert_state ty id [(f, "add", .vint x)] t = .ok em1 →
      fieldNow em1 ty id f = some (.vint x)) ∧
    (∀ (em em1 : EntityManager) (ty id f : String) (x t : Int)
       (cur : EntityState),
      em.get_entity_state ty id none = some cur →
      lookupField cur.state f = none →
      em.insert_state ty id [(f, "subtract", .vint x)] t = .ok em1 →
      fieldNow em1 ty id f = some (.vint (-x))) := by
  refine ⟨?_, ?_, ?_, ?_⟩
  · intro em em1 em2 emB ty id f x t1 t2 t3 h1 h2 h3
    obtain ⟨cur, nf1, hcur, happ1, hc1⟩ :=
      insert_state_ok_current em em1 ty id _ t1 h1
    obtain ⟨cur2, nf2, hcur2, happ2, hc2⟩ :=
      insert_state_ok_current em1 em2 ty id _ t2 h2
    obtain ⟨curB, nfB, hcurB, happB, hcB⟩ :=
      insert_state_ok_current em emB ty id _ t3 h3
    have hcur2eq : cur2 = ⟨ty, id, nf1, t1, none⟩ := by
      rw [hcur2] at hc1; exact (Option.some.injEq _ _).mp hc1
    have hcurBeq : curB = cur := by
      rw [hcurB] at hcur; exact (Option.some.injEq _ _).mp hcur
    obtain ⟨a, ha, hnf1⟩ := applyUpdates_add cur.state f x nf1 happ1
    have hlook1 : lookupField nf1 f = some (.vint (a + x)) := by
      rw [hnf1]; exact lookupField_setField_self _ _ _
    obtain ⟨b, hb, hnf2⟩ := applyUpdates_add cur2.state f x nf2 happ2
    have hbval : b = a + x := by
      rw [hcur2eq] at hb
      simp only at hb
      rw [hlook1] at hb
      simpa using hb.symm
    obtain ⟨c, hc', hnfB⟩ := applyUpdates_add curB.state f (2 * x) nfB happB
    have hcval : c = a := by
      rw [hcurBeq] at hc'
      rw [ha] at hc'
      simpa using hc'.symm
    have hxx : a + x + x = a + 2 * x := by ring
    simp [fieldNow, hc2, hcB, hnf2, hnfB, hbval, hcval, hxx,
      getStateD_setField_self]
  · intro em em1 em2 ty id f v t1 t2 h1 h2
    obtain ⟨cur, nf1, hcur, happ1, hc1⟩ :=
      insert_state_ok_current em em1 ty id _ t1 h1
    obtain ⟨cur2, nf2, hcur2, happ2, hc2⟩ :=
      insert_state_ok_current em1 em2 ty id _ t2 h2
    rw [applyUpdates_is] at happ1 happ2
    have hnf1 : nf1 = setField cur.state f v :=
      ((Except.ok.injEq _ _).mp happ1).symm
    have hnf2 : nf2 = setField cur2.state f v :=
      ((Except.ok.injEq _ _).mp happ2).symm
    simp [fieldNow, hc1, hc2, hnf1, hnf2, getStateD_setField_self]
  · intro em em1 ty id f x t cur hget hmiss h1
    obtain ⟨cur', nf1, hcur', happ1, hc1⟩ :=
      insert_state_ok_current em em1 ty id _ t h1
    have : cur' = cur := by
      rw [hcur'] at hget; exact (Option.some.injEq _ _).mp hget
    subst this
    obtain ⟨a, ha, hnf1⟩ := applyUpdates_add cur'.state f x nf1 happ1
    rw [hmiss] at ha
    have haz : a = 0 := by simpa using ha.symm
    simp [fieldNow, hc1, hnf1, haz, getStateD_setField_self]
  · intro em em1 ty id f x t cur hget hmiss h1
    obtain ⟨cur', nf1, hcur', happ1, hc1⟩ :=
      insert_state_ok_current em em1 ty id _ t h1
    have : cur' = cur := by
      rw [hcur'] at hget; exact (Option.some.injEq _ _).mp hget
    subst this
    obtain ⟨a, ha, hnf1⟩ := applyUpdates_subtract cur'.state f x nf1 happ1
    rw [hmiss] at ha
    have haz : a = 0 := by simpa using ha.symm
    simp [fieldNow, hc1, hnf1, haz, getStateD_setField_self]

/-- Concrete store for the C7 witness: one entity with an integer field. -/
def em7 : EntityManager :=
  EntityManager.empty.add_entity "U" "u" [("bal", Value.vint 10)] 0

/-- Extraction of the ok result of a store operation (the operations in the
witnesses below all succeed, which `rfl` certifies). -/
def okOr (e : Except String EntityManager) : EntityManager :=
  e.toOption.getD EntityManager.empty

/-- After one `add 2`. -/
def em71 : EntityManager :=
  okOr (em7.insert_state "U" "u" [("bal", "add", Value.vint 2)] 1)

/-- After two sequential `add 2`. -/
def em72 : EntityManager :=
  okOr (em71.insert_state "U" "u" [("bal", "add", Value.vint 2)] 2)

/-- After one `add 4`. -/
def em7B : EntityManager :=
  okOr (em7.insert_state "U" "u" [("bal", "add", Value.vint (2 * 2))] 3)

/-- After one `set 7`. -/
def em7s1 : EntityManager :=
  okOr (em7.insert_state "U" "u" [("bal", "is", Value.vint 7)] 1)

/-- After two `set 7`. -/
def em7s2 : EntityManager :=
  okOr (em7s1.insert_state "U" "u" [("bal", "is", Value.vint 7)] 2)

/-- After `add 2` on a missing field. -/
def em7m : EntityManager :=
  okOr (em7.insert_state "U" "u" [("mis", "add", Value.vint 2)] 1)

/-- After `subtract 2` on a missing field. -/
def em7n : EntityManager :=
  okOr (em7.insert_state "U" "u" [("mis", "subtract", Value.vint 2)] 1)

/-- Witness for C7 at the concrete store. -/
theorem mutation_field_algebra_witness :
    fieldNow em72 "U" "u" "bal" = fieldNow em7B "U" "u" "bal" ∧
    fieldNow em7s2 "U" "u" "bal" = fieldNow em7s1 "U" "u" "bal" ∧
    fieldNow em7m "U" "u" "mis" = some (Value.vint 2) ∧
    fieldNow em7n "U" "u" "mis" = some (Value.vint (-2)) :=
  ⟨mutation_field_algebra.1 em7 em71 em72 em7B "U" "u" "bal" 2 1 2 3
      rfl rfl rfl,
   mutation_field_algebra.2.1 em7 em7s1 em7s2 "U" "u" "bal" (Value.vint 7)
      1 2 rfl rfl,
   mutation_field_algebra.2.2.1 em7 em7m "U" "u" "mis" 2 1
      ⟨"U", "u", [("bal", Value.vint 10)], 0, none⟩ rfl rfl rfl,
   mutation_field_algebra.2.2.2 em7 em7n "U" "u" "mis" 2 1
      ⟨"U", "u", [("bal", Value.vint 10)], 0, none⟩ rfl rfl rfl⟩

/-! Claim C9: mutations never rewrite history. -/

/-- Two versions that carry the same fields and the same validity verdict at
the observation time `t`. -/
def SameAt (t : Int) (a b : EntityState) : Prop :=
  a.state = b.state ∧ a.is_valid_at t = b.is_valid_at t

theorem sameAt_refl (t : Int) : ∀ l : List EntityState,
    List.Forall₂ (SameAt t) l l
  | [] => List.Forall₂.nil
  | _ :: rest => List.Forall₂.cons ⟨rfl, rfl⟩ (sameAt_refl t rest)

theorem closeFirstOpen_sameAt (t time : Int) (ht : t < time) :
    ∀ l : List EntityState, List.Forall₂ (SameAt t) l (closeFirstOpen l time) := by
  intro l
  induction l with
  | nil => exact List.Forall₂.nil
  | cons s rest ih =>
      by_cases hs : s.valid_to = none
      · simp only [closeFirstOpen, hs, if_pos]
        refine List.Forall₂.cons ⟨rfl, ?_⟩ (sameAt_refl t rest)
        simp only [EntityState.is_valid_at, hs]
        by_cases hvf : t < s.valid_from
        · simp [hvf]
        · simp [hvf, not_le.mpr ht]
      · simp only [closeFirstOpen, hs, if_neg]
        exact List.Forall₂.cons ⟨rfl, rfl⟩ ih

theorem closeCurrent_sameAt (t time : Int) (ht : t < time)
    (r : List EntityState) :
    List.Forall₂ (SameAt t) r (closeCurrent r time) := by
  have h := closeFirstOpen_sameAt t time ht r.reverse
  have h2 := List.rel_reverse h
  simpa [closeCurrent] using h2

theorem find?_map_state_sameAt (t : Int) :
    ∀ (l l' : List EntityState), List.Forall₂ (SameAt t) l l' →
      (l.find? (fun s => s.is_valid_at t)).map (fun s => s.state) =
      (l'.find? (fun s => s.is_valid_at t)).map (fun s => s.state) := by
  intro l l' h
  induction h with
  | nil => rfl
  | cons hab hrest ih =>
      rename_i a b as bs
      cases hv : a.is_valid_at t with
      | true =>
          have hvb : b.is_valid_at t = true := by rw [← hab.2]; exact hv
          simp [List.find?, hv, hvb, hab.1]
      | false =>
          have hvb : b.is_valid_at t = false := by rw [← hab.2]; exact hv
          simp [List.find?, hv, hvb, ih]

/-- The explicit result of a successful `insert_state` call. -/
theorem insert_state_ok_shape (em em' : EntityManager) (ty id : String)
    (upds : List Update) (time : Int)
    (h : em.insert_state ty id upds time = .ok em') :
    ∃ r cur nf, lookupKey em.entity_states (ty, id) = some r ∧
      currentOf r = some cur ∧ applyUpdates cur.state upds = .ok nf ∧
      em' = { em with entity_states := (setKey em.entity_states (ty, id)
        (closeCurrent r time ++ [⟨ty, id, nf, time, none⟩])) } := by
  unfold EntityManager.insert_state at h
  simp only at h
  cases hr : lookupKey em.entity_states (ty, id) with
  | none => rw [hr] at h; simp at h
  | some r =>
      rw [hr] at h
      simp only at h
      cases hcur : currentOf r with
      | none => rw [hcur] at h; simp at h
      | some cur =>
          rw [hcur] at h
          simp only at h
          cases hnf : applyUpdates cur.state upds with
          | error e => rw [hnf] at h; simp [bind, Except.bind] at h
          | ok nf =>
              rw [hnf] at h
              simp only [bind, Except.bind, pure, Except.pure,
                Except.ok.injEq] at h
              exact ⟨r, cur, nf, rfl, hcur, hnf, h.symm⟩

/-- C9: a successful mutation at `time` leaves every point-in-time read at
any `t < time` unchanged — for every key, `versionAt t` returns the same
field map before and after the call (the only changes are the `valid_to`
stamp on the previously open version, irrelevant below `time`, and the newly
appended version, not yet valid at `t`). -/
theorem insert_state_frame (em em' : EntityManager) (ty id : String)
    (upds : List Update) (time : Int)
    (h : em.insert_state ty id upds time = .ok em')
    (t : Int) (ht : t < time) (ty' id' : String) :
    (em'.get_entity_state ty' id' (some t)).map (fun s => s.state) =
    (em.get_entity_state ty' id' (some t)).map (fun s => s.state) := by
  obtain ⟨r, cur, nf, hr, hcur, hnf, hem'⟩ :=
    insert_state_ok_shape em em' ty id upds time h
  subst hem'
  by_cases hk : (ty', id') = ((ty, id) : EntityKey)
  · simp only [EntityManager.get_entity_state, hk, lookupKey_setKey_self, hr]
    rw [List.find?_append]
    have hnew : (⟨ty, id, nf, time, none⟩ : EntityState).is_valid_at t
        = false := by
      simp [EntityState.is_valid_at, ht]
    have hnone : List.find? (fun s => s.is_valid_at t)
        [(⟨ty, id, nf, time, none⟩ : EntityState)] = none := by
      simp [List.find?, hnew]
    rw [hnone]
    have hcongr := find?_map_state_sameAt t r (closeCurrent r time)
      (closeCurrent_sameAt t time ht r)
    simp only [Option.or_none]
    exact hcongr.symm
  · simp only [EntityManager.get_entity_state,
      lookupKey_setKey_ne _ _ _ _ hk]

/-- Witness for C9: a concrete mutation at time 10 read back at time 5. -/
theorem insert_state_frame_witness :
    ((okOr (em7.insert_state "U" "u" [("bal", "is", Value.vint 3)]
      10)).get_entity_state "U" "u" (some 5)).map (fun s => s.state) =
    (em7.get_entity_state "U" "u" (some 5)).map (fun s => s.state) :=
  insert_state_frame em7
    (okOr (em7.insert_state "U" "u" [("bal", "is", Value.vint 3)] 10))
    "U" "u" [("bal", "is", Value.vint 3)] 10 rfl 5 (by decide) "U" "u"

/-! Claim C8: predicate operator semantics. -/

theorem matchesWhere_true_all (st : List (String × Value)) :
    ∀ (conds : List Cond), matchesWhere st conds = .ok true →
      ∀ c ∈ conds, evalCond st c = .ok true := by
  intro conds
  induction conds with
  | nil => intro _ c hc; exact absurd hc (List.not_mem_nil c)
  | cons c rest ih =>
      intro h c' hc'
      simp only [matchesWhere, bind, Except.bind] at h
      cases he : evalCond st c with
      | error e => rw [he] at h; simp at h
      | ok b =>
          rw [he] at h
          cases b with
          | false => simp [pure, Except.pure] at h
          | true =>
              simp only [if_true] at h
              rcases List.mem_cons.mp hc' with hceq | hmem
              · rw [hceq]; exact he
              · exact ih h c' hmem

theorem queryAux_mem_matches (em : EntityManager) (ty : String)
    (conds : List Cond) (time : Option Int) :
    ∀ (l : List (EntityKey × List EntityState))
      (res : List (String × EntityState)) (eid : String) (st : EntityState),
      queryAux em ty conds time l = .ok res → (eid, st) ∈ res →
      matchesWhere st.state conds = .ok true := by
  intro l
  induction l with
  | nil =>
      intro res eid st h hm
      simp only [queryAux, Except.ok.injEq] at h
      rw [← h] at hm
      exact absurd hm (List.not_mem_nil _)
  | cons p rest ih =>
      intro res eid st h hm
      obtain ⟨⟨ety, eid'⟩, r⟩ := p
      simp only [queryAux] at h
      by_cases hty : ety = ty
      · rw [if_pos hty] at h
        cases hg : em.get_entity_state ty eid' time with
        | none => rw [hg] at h; exact ih res eid st h hm
        | some st' =>
            rw [hg] at h
            simp only [bind, Except.bind] at h
            cases hmw : matchesWhere st'.state conds with
            | error e => rw [hmw] at h; simp at h
            | ok m =>
                rw [hmw] at h
                cases ht : queryAux em ty conds time rest with
                | error e => rw [ht] at h; simp at h
                | ok tail =>
                    rw [ht] at h
                    simp only at h
                    cases m with
                    | true =>
                        rw [if_pos rfl] at h
                        have hres : (eid', st') :: tail = res :=
                          (Except.ok.injEq _ _).mp h
                        rw [← hres] at hm
                        rcases List.mem_cons.mp hm with heq | hmem
                        · have : st = st' := congrArg Prod.snd heq
                          rw [this]
                          exact hmw
                        · exact ih tail eid st ht hmem
                    | false =>
                        rw [if_neg Bool.false_ne_true] at h
                        have hres : tail = res := (Except.ok.injEq _ _).mp h
                        rw [← hres] at hm
                        exact ih tail eid st ht hm
      · rw [if_neg hty] at h
        exact ih res eid st h hm

theorem evalCond_ordering_needs_value (st : List (String × Value))
    (f op : String) (cv : CondVal)
    (hop : op = "greater_than" ∨ op = ">" ∨ op = "less_than" ∨ op = "<")
    (h : evalCond st (f, op, cv) = .ok true) :
    getStateD st f ≠ Value.vnone := by
  intro hnone
  rcases hop with h1 | h1 | h1 | h1 <;> subst h1 <;>
    simp [evalCond, hnone] at h

/-- C8: in any query, the ordering operators (`greater_than`/`>`,
`less_than`/`<`) never match an entity whose queried field is absent from
the version's field map or stored as `None`; the equality and membership
operators are instead evaluated on that field value with absence treated as
`None`. -/
theorem query_predicate_semantics :
    (∀ (em : EntityManager) (ty : String) (conds : List Cond)
       (time : Option Int) (res : List (String × EntityState))
       (eid : String) (st : EntityState) (f op : String) (cv : CondVal),
      em.query ty conds time = .ok res → (eid, st) ∈ res →
      (f, op, cv) ∈ conds →
      (op = "greater_than" ∨ op = ">" ∨ op = "less_than" ∨ op = "<") →
      getStateD st.state f ≠ Value.vnone) ∧
    (∀ (st : List (String × Value)) (f : String) (v : Value),
      (evalCond st (f, "is", .val v) = .ok true ↔ getStateD st f = v) ∧
      (evalCond st (f, "=", .val v) = .ok true ↔ getStateD st f = v) ∧
      (evalCond st (f, "is_not", .val v) = .ok true ↔ getStateD st f ≠ v) ∧
      (evalCond st (f, "!=", .val v) = .ok true ↔ getStateD st f ≠ v)) ∧
    (∀ (st : List (String × Value)) (f : String) (vs : List Value),
      evalCond st (f, "in", .list vs) = .ok true ↔ getStateD st f ∈ vs) := by
  refine ⟨?_, ?_, ?_⟩
  · intro em ty conds time res eid st f op cv hq hmem hcond hop
    have hmw := queryAux_mem_matches em ty conds time em.entity_states res
      eid st hq hmem
    exact evalCond_ordering_needs_value st.state f op cv hop
      (matchesWhere_true_all st.state conds hmw (f, op, cv) hcond)
  · intro st f v
    refine ⟨?_, ?_, ?_, ?_⟩ <;> simp [evalCond, condValEq]
  · intro st f vs
    simp [evalCond, pyIn]

/-- Concrete store for the C8 witness. -/
def em8 : EntityManager :=
  EntityManager.empty.add_entity "P" "p1" [("price", Value.vint 50)] 0

/-- The matching query result used in the C8 witness. -/
def c8res : List (String × EntityState) :=
  ((em8.query "P" [("price", "greater_than", CondVal.val (Value.vint 10))]
    (some 0)).toOption).getD []

/-- Witness for C8 at a concrete matched entity. -/
theorem query_predicate_semantics_witness :
    getStateD [("price", Value.vint 50)] "price" ≠ Value.vnone :=
  query_predicate_semantics.1 em8 "P"
    [("price", "greater_than", CondVal.val (Value.vint 10))] (some 0) c8res
    "p1" ⟨"P", "p1", [("price", Value.vint 50)], 0, none⟩ "price"
    "greater_than" (CondVal.val (Value.vint 10)) rfl (by decide) (by decide)
    (Or.inl rfl)

/-! Claim C5: the versioning invariant. -/

/-- The relation between consecutive versions of a well-formed record:
contiguous (no gap, no overlap) and strictly increasing. -/
def wfChain (a b : EntityState) : Prop :=
  a.valid_to = some b.valid_from ∧ a.valid_from < b.valid_from

instance : DecidableRel wfChain := fun a b => by
  unfold wfChain; infer_instance

/-- A well-formed record: consecutive versions are contiguous and ordered,
and the last version is open (hence it is the only open one). -/
def wfRecord (r : List EntityState) : Prop :=
  List.Chain' wfChain r ∧
  r.getLast?.map (fun s => s.valid_to) = some none

instance (r : List EntityState) : Decidable (wfRecord r) := by
  unfold wfRecord; infer_instance

/-- Sequential application of `mutate_state` calls, each a list of updates
with its time, as flows perform them over a run. -/
def runMutations (em : EntityManager) (ty id : String) :
    List (List Update × Int) → Except String EntityManager
  | [] => .ok em
  | (upds, t) :: rest => do
      let em' ← em.insert_state ty id upds t
      runMutations em' ty id rest

theorem closeCurrent_concat_open (l : List EntityState) (v : EntityState)
    (hv : v.valid_to = none) (time : Int) :
    closeCurrent (l ++ [v]) time = l ++ [{ v with valid_to := some time }] := by
  simp [closeCurrent, closeFirstOpen, hv]

theorem wfRecord_ne_nil (r : List EntityState) (h : wfRecord r) : r ≠ [] := by
  intro hnil
  rw [hnil] at h
  simp [wfRecord] at h

theorem insert_wf_step (em em' : EntityManager) (ty id : String)
    (upds : List Update) (time : Int) (r : List EntityState)
    (hr : lookupKey em.entity_states (ty, id) = some r)
    (hwf : wfRecord r)
    (hbound : ∀ v ∈ r, v.valid_from < time)
    (h : em.insert_state ty id upds time = .ok em') :
    ∃ r', lookupKey em'.entity_states (ty, id) = some r' ∧ wfRecord r' ∧
      r'.length = r.length + 1 ∧
      r'.head?.map (fun s => s.valid_from) =
        r.head?.map (fun s => s.valid_from) ∧
      ∀ v ∈ r', v.valid_from ≤ time := by
  obtain ⟨r₀, cur, nf, hr₀, _hcur, _hnf, hem'⟩ :=
    insert_state_ok_shape em em' ty id upds time h
  have hrr : r₀ = r := by
    rw [hr₀] at hr; exact (Option.some.injEq _ _).mp hr
  rw [hrr] at hem'
  have hne : r ≠ [] := wfRecord_ne_nil r hwf
  set vl := r.getLast hne with hvl_def
  have hl : r.dropLast ++ [vl] = r := List.dropLast_append_getLast hne
  have hlast? : r.getLast? = some vl := List.getLast?_eq_getLast r hne
  have hvlopen : vl.valid_to = none := by
    have := hwf.2
    rw [hlast?] at this
    simpa using this
  have hclose : closeCurrent r time =
      r.dropLast ++ [{ vl with valid_to := some time }] := by
    conv_lhs => rw [← hl]
    exact closeCurrent_concat_open r.dropLast vl hvlopen time
  refine ⟨closeCurrent r time ++ [⟨ty, id, nf, time, none⟩], ?_, ?_, ?_, ?_, ?_⟩
  · rw [hem']
    exact lookupKey_setKey_self _ _ _
  · constructor
    · rw [hclose]
      have hch : List.Chain' wfChain (r.dropLast ++ [vl]) := by
        rw [hl]; exact hwf.1
      rw [List.chain'_append] at hch
      rw [List.append_assoc, List.chain'_append]
      refine ⟨hch.1, ?_, ?_⟩
      · rw [List.chain'_append]
        refine ⟨List.chain'_singleton _, List.chain'_singleton _, ?_⟩
        intro x hx y hy
        have hx' : x = { vl with valid_to := some time } := by
          simpa [Option.mem_def, eq_comm] using hx
        have hy' : y = (⟨ty, id, nf, time, none⟩ : EntityState) := by
          simpa [Option.mem_def, eq_comm] using hy
        rw [hx', hy']
        refine ⟨rfl, ?_⟩
        exact hbound vl (List.getLast_mem hne)
      · intro x hx y hy
        simp only [List.cons_append, List.nil_append, List.head?_cons,
          Option.mem_def, Option.some.injEq] at hy
        have hwfx : wfChain x vl := hch.2.2 x hx vl (by simp)
        rw [← hy]
        exact ⟨hwfx.1, hwfx.2⟩
    · rw [hclose, List.append_assoc]
      simp [List.getLast?_concat]
  · rw [hclose]
    have : r.dropLast.length + 1 = r.length := by
      conv_rhs => rw [← hl]
      simp
    simp only [List.length_append, List.length_cons, List.length_nil]
    omega
  · rw [hclose]
    cases hdl : r.dropLast with
    | nil =>
        have : r = [vl] := by rw [← hl, hdl]; rfl
        rw [this]
        rfl
    | cons a l =>
        have : r.head? = some a := by
          conv_lhs => rw [← hl]
          rw [hdl]
          rfl
        rw [this]
        rfl
  · intro v hv
    rw [hclose, List.append_assoc] at hv
    rcases List.mem_append.mp hv with hv1 | hv2
    · exact le_of_lt (hbound v (List.dropLast_subset r hv1))
    · rcases List.mem_append.mp hv2 with hv3 | hv4
      · have : v = { vl with valid_to := some time } := List.mem_singleton.mp hv3
        rw [this]
        exact le_of_lt (hbound vl (List.getLast_mem hne))
      · have : v = ⟨ty, id, nf, time, none⟩ := List.mem_singleton.mp hv4
        rw [this]

theorem runMutations_wf (muts : List (List Update × Int)) :
    ∀ (em em' : EntityManager) (ty id : String) (r : List EntityState)
      (T : Int),
      lookupKey em.entity_states (ty, id) = some r → wfRecord r →
      (∀ v ∈ r, v.valid_from ≤ T) →
      List.Chain (· < ·) T (muts.map (fun m => m.2)) →
      runMutations em ty id muts = .ok em' →
      ∃ r', lookupKey em'.entity_states (ty, id) = some r' ∧ wfRecord r' ∧
        r'.length = r.length + muts.length ∧
        r'.head?.map (fun s => s.valid_from) =
          r.head?.map (fun s => s.valid_from) ∧
        ∀ v ∈ r', v.valid_from ≤
          (T :: muts.map (fun m => m.2)).getLast (by simp) := by
  induction muts with
  | nil =>
      intro em em' ty id r T hr hwf hb _hch hrun
      simp only [runMutations, Except.ok.injEq] at hrun
      subst hrun
      exact ⟨r, hr, hwf, by simp, rfl, by simpa using hb⟩
  | cons m rest ih =>
      obtain ⟨upds, t⟩ := m
      intro em em' ty id r T hr hwf hb hch hrun
      simp only [runMutations, bind, Except.bind] at hrun
      cases hins : em.insert_state ty id upds t with
      | error e => rw [hins] at hrun; simp at hrun
      | ok em1 =>
          rw [hins] at hrun
          simp only [List.map_cons, List.chain_cons] at hch
          obtain ⟨hTt, hch'⟩ := hch
          have hblt : ∀ v ∈ r, v.valid_from < t :=
            fun v hv => lt_of_le_of_lt (hb v hv) hTt
          obtain ⟨r1, hr1, hwf1, hlen1, hhead1, hb1⟩ :=
            insert_wf_step em em1 ty id upds t r hr hwf hblt hins
          obtain ⟨r', hr', hwf', hlen', hhead', hb'⟩ :=
            ih em1 em' ty id r1 t hr1 hwf1 hb1 hch' hrun
          refine ⟨r', hr', hwf', ?_, hhead'.trans hhead1, ?_⟩
          · rw [hlen', hlen1]
            simp only [List.length_cons]
            omega
          · intro v hv
            have := hb' v hv
            rwa [List.getLast_cons (by simp)]

/-- Every non-final version of a record whose consecutive versions are
contiguous carries a closing timestamp. -/
theorem chain_dropLast_closed :
    ∀ (r : List EntityState), List.Chain' wfChain r →
      ∀ v ∈ r.dropLast, v.valid_to ≠ none := by
  intro r
  induction r with
  | nil => intro _ v hv; simp at hv
  | cons a rest ih =>
      intro hch v hv
      cases rest with
      | nil => simp at hv
      | cons b rs =>
          rw [List.chain'_cons] at hch
          rw [List.dropLast_cons₂] at hv
          rcases List.mem_cons.mp hv with hva | hvr
          · rw [hva]
            rw [hch.1.1]
            simp
          · exact ih hch.2 v hvr

/-- C5 fails as stated: a successful mutation at time 3 after registration at
time 5 leaves the record with `valid_from` sequence `[5, 3]`, which is not
totally ordered by `valid_from`. -/
theorem versions_partition_counterexample :
    ((EntityManager.empty.add_entity "User" "u1" [] 5).insert_state
        "User" "u1" [] 3).isOk = true ∧
    ((EntityManager.empty.add_entity "User" "u1" [] 5).insert_state
        "User" "u1" [] 3).map
      (fun em => (lookupKey em.entity_states ("User", "u1")).map
        (fun r => r.map (fun s => s.valid_from))) = .ok (some [5, 3]) ∧
    ¬ List.Chain' (fun a b : Int => a < b) [5, 3] :=
  ⟨rfl, rfl, by simp [List.chain'_cons]⟩

/-- C5 (amended): registering once at `t0` and applying `n` successful
mutations at strictly increasing times yields a record of exactly `n + 1`
versions that are totally ordered by `valid_from`, contiguous (each version
closes exactly where the next opens, so the intervals partition the covered
span with no gaps or overlaps), whose last version is the only open one, and
whose first version starts at the registration time.  The strictly
increasing times are necessary: without them the counterexample applies. -/
theorem versions_partition (ty id : String) (fields : List (String × Value))
    (t0 : Int) (muts : List (List Update × Int)) (em' : EntityManager)
    (hchain : List.Chain (· < ·) t0 (muts.map (fun m => m.2)))
    (hrun : runMutations (EntityManager.empty.add_entity ty id fields t0)
      ty id muts = .ok em') :
    ∃ r, lookupKey em'.entity_states (ty, id) = some r ∧
      r.length = muts.length + 1 ∧
      List.Chain' wfChain r ∧
      r.getLast?.map (fun s => s.valid_to) = some none ∧
      (∀ v ∈ r.dropLast, v.valid_to ≠ none) ∧
      r.head?.map (fun s => s.valid_from) = some t0 := by
  have hr0 : lookupKey (EntityManager.empty.add_entity ty id
      fields t0).entity_states (ty, id) =
      some [⟨ty, id, fields, t0, none⟩] := by
    simp [EntityManager.add_entity, EntityManager.empty, lookupKey,
      lookupKey_setKey_self]
  have hwf0 : wfRecord [⟨ty, id, fields, t0, none⟩] :=
    ⟨List.chain'_singleton _, by simp⟩
  have hb0 : ∀ v ∈ [(⟨ty, id, fields, t0, none⟩ : EntityState)],
      v.valid_from ≤ t0 := by
    intro v hv
    rw [List.mem_singleton.mp hv]
  obtain ⟨r, hr, hwf, hlen, hhead, _⟩ :=
    runMutations_wf muts _ em' ty id _ t0 hr0 hwf0 hb0 hchain hrun
  refine ⟨r, hr, ?_, hwf.1, hwf.2, chain_dropLast_closed r hwf.1, ?_⟩
  · rw [hlen]; simp; omega
  · simpa using hhead

/-- Concrete store for the C5 witness: registration at 0, mutations at 1
and 2. -/
def em5' : EntityManager :=
  okOr (runMutations (EntityManager.empty.add_entity "W" "w1"
    [("bal", Value.vint 0)] 0) "W" "w1"
    [([("bal", "is", Value.vint 1)], 1), ([("bal", "add", Value.vint 2)], 2)])

/-- Witness for C5's amended statement: two mutations give a 3-version
record starting at the registration time. -/
theorem versions_partition_witness :
    (lookupKey em5'.entity_states ("W", "w1")).map List.length = some 3 := by
  obtain ⟨r, hr, hlen, _, _, _, _⟩ :=
    versions_partition "W" "w1" [("bal", Value.vint 0)] 0
      [([("bal", "is", Value.vint 1)], 1), ([("bal", "add", Value.vint 2)], 2)]
      em5' (by simp [List.chain_cons]) rfl
  rw [hr]
  simp [hlen]

/-! Claim C6: point-in-time reads on a well-formed record. -/

theorem is_valid_at_iff (s : EntityState) (t : Int) :
    s.is_valid_at t = true ↔
      s.valid_from ≤ t ∧ (∀ vt, s.valid_to = some vt → t < vt) := by
  unfold EntityState.is_valid_at
  cases hvt : s.valid_to with
  | none =>
      by_cases h : t < s.valid_from <;> simp [h] <;> omega
  | some vt =>
      by_cases h : t < s.valid_from
      · simp only [if_pos h]
        constructor
        · intro hh; cases hh
        · intro hh; omega
      · by_cases h2 : vt ≤ t
        · simp only [if_neg h, if_pos h2]
          constructor
          · intro hh; cases hh
          · intro hh
            have := hh.2 vt rfl
            omega
        · simp only [if_neg h, if_neg h2]
          constructor
          · intro _
            refine ⟨by omega, ?_⟩
            intro vt' hvt'
            have hvv : vt = vt' := (Option.some.injEq _ _).mp hvt'
            omega
          · intro _
            trivial

/-- Derived ordering between any two (not necessarily consecutive) versions
of a well-formed record: strictly later start, and the earlier one closes at
or before the later one starts. -/
def VersionBefore (a b : EntityState) : Prop :=
  a.valid_from < b.valid_from ∧
    ∃ c, a.valid_to = some c ∧ c ≤ b.valid_from

theorem wfChain_pairwise (r : List EntityState)
    (h : List.Chain' wfChain r) : List.Pairwise VersionBefore r := by
  haveI : IsTrans EntityState VersionBefore :=
    ⟨fun a b c hab hbc => ⟨lt_trans hab.1 hbc.1,
      hab.2.choose, hab.2.choose_spec.1,
      le_trans (le_trans hab.2.choose_spec.2 (le_of_lt hbc.1)) (le_refl _)⟩⟩
  have h2 : List.Chain' VersionBefore r :=
    List.Chain'.imp (fun a b hab =>
      ⟨hab.2, b.valid_from, hab.1, le_refl _⟩) h
  exact List.chain'_iff_pairwise.mp h2

theorem earlier_version_invalid (a b : EntityState) (t : Int)
    (hab : VersionBefore a b) (hb : b.is_valid_at t = true) :
    a.is_valid_at t = false := by
  obtain ⟨_, c, hc, hcb⟩ := hab
  have hbf : b.valid_from ≤ t := ((is_valid_at_iff b t).mp hb).1
  cases ha : a.is_valid_at t with
  | false => rfl
  | true =>
      have := ((is_valid_at_iff a t).mp ha).2 c hc
      omega

theorem find_first_valid (t : Int) :
    ∀ (r : List EntityState), List.Pairwise VersionBefore r →
      ∀ v ∈ r, v.is_valid_at t = true →
        r.find? (fun s => s.is_valid_at t) = some v := by
  intro r
  induction r with
  | nil => intro _ v hv; exact absurd hv (List.not_mem_nil v)
  | cons u rest ih =>
      intro hp v hv hval
      rw [List.pairwise_cons] at hp
      rcases List.mem_cons.mp hv with hvu | hvr
      · subst hvu
        simp [List.find?, hval]
      · have hu : u.is_valid_at t = false :=
          earlier_version_invalid u v t (hp.1 v hvr) hval
        simp only [List.find?, hu]
        exact ih hp.2 v hvr hval

/-- C6: on an entity whose record is well-formed (the versioning invariant
of the data model), `versionAt` returns `None` for times before
registration, returns the final (open) version for every time at or after
its `valid_from`, and in general returns exactly the unique version whose
half-open validity interval contains the queried time. -/
theorem versionAt_semantics (em : EntityManager) (ty id : String)
    (r : List EntityState) (t : Int) (v0 vn : EntityState)
    (hr : lookupKey em.entity_states (ty, id) = some r)
    (hwf : wfRecord r)
    (h0 : r.head? = some v0) (hn : r.getLast? = some vn) :
    (t < v0.valid_from → em.get_entity_state ty id (some t) = none) ∧
    (vn.valid_from ≤ t → em.get_entity_state ty id (some t) = some vn) ∧
    (∀ v ∈ r, v.is_valid_at t = true →
      em.get_entity_state ty id (some t) = some v) ∧
    (∀ v, em.get_entity_state ty id (some t) = some v →
      v ∈ r ∧ v.is_valid_at t = true) := by
  have hpw := wfChain_pairwise r hwf.1
  have hget : em.get_entity_state ty id (some t) =
      r.find? (fun s => s.is_valid_at t) := by
    simp [EntityManager.get_entity_state, hr]
  have hmemc : ∀ v ∈ r, v.is_valid_at t = true →
      em.get_entity_state ty id (some t) = some v := by
    intro v hv hval
    rw [hget]
    exact find_first_valid t r hpw v hv hval
  refine ⟨?_, ?_, hmemc, ?_⟩
  · intro hlt
    rw [hget]
    rw [List.find?_eq_none]
    intro v hv
    cases r with
    | nil => exact absurd hv (List.not_mem_nil v)
    | cons u rest =>
        have hu : u = v0 := by
          rw [List.head?_cons] at h0
          exact (Option.some.injEq _ _).mp h0
        rw [List.pairwise_cons] at hpw
        have hvf : v0.valid_from ≤ v.valid_from := by
          rcases List.mem_cons.mp hv with hvu | hvr
          · rw [hvu, hu]
          · rw [← hu]
            exact le_of_lt (hpw.1 v hvr).1
        intro hcon
        have := ((is_valid_at_iff v t).mp (by simpa using hcon)).1
        omega
  · intro hle
    have hne : r ≠ [] := by
      intro hnil
      rw [hnil] at hn
      simp at hn
    have hvm : vn ∈ r := by
      have := List.getLast?_eq_getLast r hne
      rw [this] at hn
      rw [(Option.some.injEq _ _).mp hn.symm]
      exact List.getLast_mem hne
    have hopen : vn.valid_to = none := by
      have := hwf.2
      rw [hn] at this
      simpa using this
    refine hmemc vn hvm ?_
    rw [is_valid_at_iff]
    exact ⟨hle, fun vt hvt => by rw [hopen] at hvt; cases hvt⟩
  · intro v hv
    rw [hget] at hv
    refine ⟨List.mem_of_find?_eq_some hv, ?_⟩
    have hp := List.find?_some hv
    simpa using hp

/-- Concrete store for the C6 witness: registration at 0, one mutation at
time 10, leaving the well-formed two-version record. -/
def em6 : EntityManager :=
  okOr ((EntityManager.empty.add_entity "U" "u" [("bal", Value.vint 5)]
    0).insert_state "U" "u" [("bal", "is", Value.vint 6)] 10)

/-- Witness for C6: before registration the read is `None`; after the last
`valid_from` it is the open version. -/
theorem versionAt_semantics_witness :
    em6.get_entity_state "U" "u" (some (-1)) = none ∧
    em6.get_entity_state "U" "u" (some 12) =
      some ⟨"U", "u", [("bal", Value.vint 6)], 10, none⟩ :=
  ⟨(versionAt_semantics em6 "U" "u"
      [⟨"U", "u", [("bal", Value.vint 5)], 0, some 10⟩,
       ⟨"U", "u", [("bal", Value.vint 6)], 10, none⟩] (-1)
      ⟨"U", "u", [("bal", Value.vint 5)], 0, some 10⟩
      ⟨"U", "u", [("bal", Value.vint 6)], 10, none⟩
      rfl (by exact ⟨by simp [List.chain'_cons, wfChain], by simp⟩) rfl rfl).1 (by decide),
   (versionAt_semantics em6 "U" "u"
      [⟨"U", "u", [("bal", Value.vint 5)], 0, some 10⟩,
       ⟨"U", "u", [("bal", Value.vint 6)], 10, none⟩] 12
      ⟨"U", "u", [("bal", Value.vint 5)], 0, some 10⟩
      ⟨"U", "u", [("bal", Value.vint 6)], 10, none⟩
      rfl (by exact ⟨by simp [List.chain'_cons, wfChain], by simp⟩) rfl rfl).2.1 (by decide)⟩

end DeepFaker
